import Mathlib

/-!
Shallow embedding of the `ssz_types` Rust crate: the bounded container types
`FixedVector<T, N>`, `VariableList<T, N>` and `RuntimeVariableList<T>`, their
SSZ binary codec, and their Merkleization (tree-hash) engine.

Conventions:
* `usize` values are modelled as `Nat` (explicit saturation is kept where the
  source uses `saturating_add`).
* Bytes are `Nat` values; the concrete byte element codec used for witnesses
  works on `Fin 256`.
* The 256-bit hashing primitive is an external collaborator of the crate, so
  every tree-hash definition is parametric in an abstract two-chunk hash
  function `H : Chunk → Chunk → Chunk`.
* The compile-time capacity `N` of `FixedVector`/`VariableList` is a
  `typenum` phantom type in Rust, i.e. it is not stored in the value; it is
  therefore passed to each operation as an explicit `Nat` argument, and the
  container values themselves hold only the backing vector.  The
  runtime-capacity list stores its `max_len` in the value, as in the source.
-/

deriving instance DecidableEq for Except

namespace SszTypes

/-- A byte string, each entry intended to be `< 256`. -/
abbrev Bytes := List Nat

/-- A 32-byte hash chunk. -/
abbrev Chunk := List Nat

/-- `ssz_types::Error` (src/lib.rs). -/
inductive Error where
  | OutOfBounds (i : Nat) (len : Nat)
  | MissingLengthInformation
  | ExcessBits
  | InvalidByteCount (given : Nat) (expected : Nat)
deriving DecidableEq, Repr

/-- `ssz::DecodeError`, the variants used by this crate's decoders. -/
inductive DecodeError where
  | InvalidByteLength (len : Nat) (expected : Nat)
  | BytesInvalid (msg : String)
  | ZeroLengthItem
deriving DecidableEq, Repr

/-- `FixedVector<T, N>` (src/fixed_vector.rs): backed by a `Vec<T>`; the
capacity `N` is a phantom type and not part of the value. -/
structure FixedVector (α : Type) where
  vec : List α
deriving DecidableEq, Repr

/-- `VariableList<T, N>` (src/variable_list.rs): backed by a `Vec<T>`; the
capacity `N` is a phantom type and not part of the value. -/
structure VariableList (α : Type) where
  vec : List α
deriving DecidableEq, Repr

/-- `RuntimeVariableList<T>` (src/runtime_types/runtime_variable_list.rs):
stores the backing vector together with its runtime `max_len`. -/
structure RuntimeVariableList (α : Type) where
  vec : List α
  maxLen : Nat
deriving DecidableEq, Repr

/-- `FixedVector::new` (src/fixed_vector.rs, lines 76-88): succeeds iff the
input length equals the capacity `n`, otherwise `Error::OutOfBounds`
carrying the offending length and the capacity. -/
def FixedVector.new (n : Nat) (v : List α) : Except Error (FixedVector α) :=
  if v.length = n then .ok ⟨v⟩
  else .error (.OutOfBounds v.length n)

/-- `VariableList::new` (src/variable_list.rs, lines 82-94): succeeds iff the
input length is at most the capacity `n`. -/
def VariableList.new (n : Nat) (v : List α) : Except Error (VariableList α) :=
  if v.length ≤ n then .ok ⟨v⟩
  else .error (.OutOfBounds v.length n)

/-- `RuntimeVariableList::new` (src/runtime_types/runtime_variable_list.rs,
lines 63-72). -/
def RuntimeVariableList.new (v : List α) (maxLen : Nat) :
    Except Error (RuntimeVariableList α) :=
  if v.length ≤ maxLen then .ok ⟨v, maxLen⟩
  else .error (.OutOfBounds v.length maxLen)

/-- `usize::MAX` on a 64-bit target. -/
def USIZE_MAX : Nat := 2 ^ 64 - 1

/-- `VariableList::push` (src/variable_list.rs, lines 122-132).  The Rust
method mutates `&mut self`; we model it state-passing style, returning the
`Result` together with the (possibly updated) container. -/
def VariableList.push (n : Nat) (s : VariableList α) (x : α) :
    Except Error Unit × VariableList α :=
  if s.vec.length < n then (.ok (), ⟨s.vec ++ [x]⟩)
  else (.error (.OutOfBounds (s.vec.length + 1) n), s)

/-- `RuntimeVariableList::push` (src/runtime_types/runtime_variable_list.rs,
lines 110-120); the error payload uses `saturating_add(1)`. -/
def RuntimeVariableList.push (s : RuntimeVariableList α) (x : α) :
    Except Error Unit × RuntimeVariableList α :=
  if s.vec.length < s.maxLen then (.ok (), ⟨s.vec ++ [x], s.maxLen⟩)
  else (.error (.OutOfBounds (min (s.vec.length + 1) USIZE_MAX) s.maxLen), s)

/-- `impl From<Vec<T>> for VariableList<T, N>` (src/variable_list.rs, lines
135-144): `vec.truncate(N)` keeps the first `N` elements. -/
def VariableList.fromVec (n : Nat) (v : List α) : VariableList α :=
  ⟨v.take n⟩

/-! ## SSZ binary codec

The containers are generic over the element type `T : ssz::Encode + ssz::Decode`.
We embed the fixed-encoded-length fragment of that trait pair as a structure;
its lawfulness (`decode ∘ encode = ok`, constant encoded length) is assumed as
explicit hypotheses of the round-trip theorems, mirroring the trait contract.
Variable-encoded-length elements delegate both encoding and decoding wholesale
to the external `ssz` crate (`decode_list_of_variable_length_items`), which the
specification lists as an external collaborator; they are outside this
embedding. -/

/-- The fixed-length fragment of the `ssz::Encode`/`ssz::Decode` trait pair for
an element type. -/
structure SszCodec (α : Type) where
  fixedLen : Nat
  encode : α → Bytes
  decode : Bytes → Except DecodeError α

/-- `slice::chunks(k)` from Rust: split into consecutive pieces of length `k`,
the final piece possibly shorter.  Implemented with a fuel argument (the list
length bounds the number of pieces when `k > 0`); Rust panics on `k = 0`, a
case our callers rule out first (they return `ZeroLengthItem` before
chunking). -/
def chunksAux (k : Nat) : Nat → List β → List (List β)
  | 0, _ => []
  | _ + 1, [] => []
  | fuel + 1, x :: xs =>
    (x :: xs).take k :: chunksAux k fuel ((x :: xs).drop k)

/-- `slice::chunks(k)` (total wrapper; `k = 0` is unreachable in the source). -/
def chunksOf (k : Nat) (l : List β) : List (List β) :=
  if k = 0 then [] else chunksAux k l.length l

/-- The `try_fold` decoding loop shared by the three fixed-length-element
decoders: decode each chunk in order, propagating the first error. -/
def decodeAll (c : SszCodec α) (bytes : Bytes) : Except DecodeError (List α) :=
  (chunksOf c.fixedLen bytes).mapM c.decode

/-- Encoding of a sequence of fixed-length elements: the concatenation of the
elements' encodings in order (`FixedVector::ssz_append`, src/fixed_vector.rs
lines 235-252, and `Vec<T>`'s `ssz_append` used by the two list types). -/
def sszAppendFixed (c : SszCodec α) (v : List α) : Bytes :=
  (v.map c.encode).flatten

/-- Modelled from the spec: `ssz_bytes_len` for a sequence of fixed-length
elements is `element_fixed_length * length` (§4.3 "Total size =
element_fixed_length * length"; the containers delegate to `Vec<T>`'s
implementation in the external `ssz` crate). -/
def sszBytesLenFixed (c : SszCodec α) (v : List α) : Nat :=
  v.length * c.fixedLen

/-- `VariableList::from_ssz_bytes` (src/variable_list.rs, lines 285-315),
fixed-length element branch.  Note the final `.map(Into::into)` goes through
the truncating `From<Vec<T>>` conversion. -/
def VariableList.fromSszBytes (c : SszCodec α) (maxLen : Nat) (bytes : Bytes) :
    Except DecodeError (VariableList α) :=
  if bytes.isEmpty then .ok ⟨[]⟩
  else if c.fixedLen = 0 then .error .ZeroLengthItem
  -- `num_items` in the source is `bytes.len() / fixed_len`, bound with `let`
  -- and used in the bound check and the error message; it is inlined here.
  else if bytes.length / c.fixedLen > maxLen then
    .error (.BytesInvalid ("VariableList of " ++
      toString (bytes.length / c.fixedLen) ++
      " items exceeds maximum of " ++ toString maxLen))
  else
    (decodeAll c bytes).map (fun v => VariableList.fromVec maxLen v)

/-- Debug formatting of `Error` as produced by Rust's `{:?}` for the variants
this crate interpolates into `BytesInvalid` messages. -/
def Error.debugFmt : Error → String
  | .OutOfBounds i len =>
      "OutOfBounds \x7b i: " ++ toString i ++ ", len: " ++ toString len ++ " \x7d"
  | .MissingLengthInformation => "MissingLengthInformation"
  | .ExcessBits => "ExcessBits"
  | .InvalidByteCount given expected =>
      "InvalidByteCount \x7b given: " ++ toString given ++ ", expected: " ++
        toString expected ++ " \x7d"

/-- `FixedVector::from_ssz_bytes` (src/fixed_vector.rs, lines 300-344),
fixed-length element branch.  Empty input is rejected up front with
`InvalidByteLength { len: 0, expected: 1 }`. -/
def FixedVector.fromSszBytes (c : SszCodec α) (n : Nat) (bytes : Bytes) :
    Except DecodeError (FixedVector α) :=
  if bytes.isEmpty then .error (.InvalidByteLength 0 1)
  else if c.fixedLen = 0 then .error .ZeroLengthItem
  else if bytes.length / c.fixedLen ≠ n then
    .error (.BytesInvalid ("FixedVector of " ++
      toString (bytes.length / c.fixedLen) ++
      " items has " ++ toString n ++ " items"))
  else
    match decodeAll c bytes with
    | .error e => .error e
    | .ok v =>
      match FixedVector.new n v with
        | .ok fv => .ok fv
        | .error e =>
          .error (.BytesInvalid
            ("Wrong number of FixedVector elements: " ++ e.debugFmt))

/-- `RuntimeVariableList::from_ssz_bytes`
(src/runtime_types/runtime_variable_list.rs, lines 124-152), fixed-length
element branch. -/
def RuntimeVariableList.fromSszBytes (c : SszCodec α) (bytes : Bytes)
    (maxLen : Nat) : Except DecodeError (RuntimeVariableList α) :=
  if bytes.isEmpty then .ok ⟨[], maxLen⟩
  else if c.fixedLen = 0 then .error .ZeroLengthItem
  else if bytes.length / c.fixedLen > maxLen then
    .error (.BytesInvalid ("RuntimeVariableList of " ++
      toString (bytes.length / c.fixedLen) ++
      " items exceeds maximum of " ++ toString maxLen))
  else
    (decodeAll c bytes).map (fun v => ⟨v, maxLen⟩)

/-- The concrete `u8` element codec (`ssz_fixed_len() = 1`), used to witness
the parametric theorems. -/
def byteCodec : SszCodec (Fin 256) where
  fixedLen := 1
  encode := fun b => [b.val]
  decode := fun l =>
    match l with
    | [x] =>
      if h : x < 256 then .ok ⟨x, h⟩
      else .error (.BytesInvalid "not a byte")
    | _ => .error (.InvalidByteLength l.length 1)

/-! ## Merkleization engine

The 256-bit hashing primitive is an external collaborator; every definition
below is parametric in `H : Chunk → Chunk → Chunk`, the hash of the
concatenation of two 32-byte chunks. -/

/-- The all-zero 32-byte chunk. -/
def zeroChunk : Chunk := List.replicate 32 0

/-- Floor base-2 logarithm, fuel-based so that it reduces definitionally
(the list/number fuel equals the argument, which bounds the recursion
depth). -/
def log2floorAux : Nat → Nat → Nat
  | 0, _ => 0
  | fuel + 1, n => if n ≤ 1 then 0 else log2floorAux fuel (n / 2) + 1

/-- `floor(log2 n)` (`0` for `n ≤ 1`). -/
def log2floor (n : Nat) : Nat := log2floorAux n n

/-- `ceil(log2 n)` for `n ≥ 1`, and `0` for `n = 0`. -/
def ceilLog2 (n : Nat) : Nat := log2floor (2 * n - 1)

/-- Rust's `usize::next_power_of_two`: the least power of two `≥ n` (`1` for
`n = 0`). -/
def nextPow2 (n : Nat) : Nat := 2 ^ ceilLog2 n

/-- Rust's `usize::div_ceil`. -/
def divCeil (a b : Nat) : Nat := a / b + if a % b = 0 then 0 else 1

/-- Zero-pad a (final, possibly partial) chunk to 32 bytes. -/
def padChunk (l : Bytes) : Chunk := l ++ List.replicate (32 - l.length) 0

/-- Split a byte stream into 32-byte leaf chunks, zero-padding the final
partial chunk: the `MerkleHasher` leaf buffer. -/
def chunkify (b : Bytes) : List Chunk := (chunksOf 32 b).map padChunk

/-- One bottom-up level of pairwise hashing (`hash(left || right)`). -/
def hashLevel (H : Chunk → Chunk → Chunk) : List Chunk → List Chunk
  | a :: b :: rest => H a b :: hashLevel H rest
  | _ => []

/-- Hash a (padded, length `2 ^ depth`) leaf layer pairwise bottom-up until a
single root remains. -/
def merkleizeDepth (H : Chunk → Chunk → Chunk) : Nat → List Chunk → Chunk
  | 0, l => l.headD zeroChunk
  | d + 1, l => merkleizeDepth H d (hashLevel H l)

/-- The semantics of `MerkleHasher::with_leaves(leafCount)` fed the given leaf
chunks: pad the leaf layer to `next_power_of_two(leafCount)` with implicit
all-zero chunks, then hash pairwise bottom-up. -/
def merkleize (H : Chunk → Chunk → Chunk) (leafCount : Nat)
    (chunks : List Chunk) : Chunk :=
  merkleizeDepth H (ceilLog2 leafCount)
    (chunks ++ List.replicate (nextPow2 leafCount - chunks.length) zeroChunk)

/-- `tree_hash::TreeHashType`. -/
inductive TreeHashType where
  | Basic
  | Vector
  | List
  | Container
deriving DecidableEq, Repr

/-- The `tree_hash::TreeHash` trait interface of an element type: its hashing
kind, packing factor, packed encoding and (for composite kinds) its own root. -/
structure TreeHashCodec (α : Type) where
  kind : TreeHashType
  packingFactor : Nat
  packedEncoding : α → Bytes
  root : α → Chunk

/-- `vec_tree_hash_root` (src/tree_hash.rs, lines 127-162): the capacity-shaped
data root shared by `FixedVector` and `VariableList`.  `Basic` elements are
packed into `ceil(n / packing_factor)` leaves; composite elements contribute
their own roots, one per leaf, with `n` leaves. -/
def vec_tree_hash_root (H : Chunk → Chunk → Chunk) (c : TreeHashCodec α)
    (n : Nat) (v : List α) : Chunk :=
  match c.kind with
  | .Basic =>
    merkleize H ((n + c.packingFactor - 1) / c.packingFactor)
      (chunkify ((v.map c.packedEncoding).flatten))
  | _ =>
    merkleize H n (chunkify ((v.map c.root).flatten))

/-- `runtime_vec_tree_hash_root` (src/runtime_types/runtime_variable_list.rs,
lines 244-277): identical to `vec_tree_hash_root` but with a runtime maximum
length, written with `max_len.div_ceil(packing_factor)`. -/
def runtime_vec_tree_hash_root (H : Chunk → Chunk → Chunk)
    (c : TreeHashCodec α) (maxLen : Nat) (v : List α) : Chunk :=
  match c.kind with
  | .Basic =>
    merkleize H (divCeil maxLen c.packingFactor)
      (chunkify ((v.map c.packedEncoding).flatten))
  | _ =>
    merkleize H maxLen (chunkify ((v.map c.root).flatten))

/-- Little-endian byte encoding, `k` bytes. -/
def toLEBytes : Nat → Nat → Bytes
  | 0, _ => []
  | k + 1, n => n % 256 :: toLEBytes k (n / 256)

/-- Modelled from the spec: the length mix-in chunk — "a little-endian value
padded to 32 bytes" (§4.4 step 4, §6); on a 64-bit target the `usize` length
occupies the first 8 bytes. -/
def lengthChunk (len : Nat) : Chunk := toLEBytes 8 len ++ List.replicate 24 0

/-- Modelled from the spec: `tree_hash::mix_in_length` of the external
`tree_hash` crate — "final_root = hash(root || little_endian_32_bytes(length))"
(§4.4 step 4). -/
def mix_in_length (H : Chunk → Chunk → Chunk) (root : Chunk) (len : Nat) :
    Chunk :=
  H root (lengthChunk len)

/-- `VariableList::tree_hash_root` (src/variable_list.rs, lines 225-229): the
capacity-shaped data root with the *current* length mixed in. -/
def VariableList.tree_hash_root (H : Chunk → Chunk → Chunk)
    (c : TreeHashCodec α) (n : Nat) (s : VariableList α) : Chunk :=
  mix_in_length H (vec_tree_hash_root H c n s.vec) s.vec.length

/-- `FixedVector::tree_hash_root` (src/fixed_vector.rs, lines 210-212): the
data root alone, no length mix-in. -/
def FixedVector.tree_hash_root (H : Chunk → Chunk → Chunk)
    (c : TreeHashCodec α) (n : Nat) (s : FixedVector α) : Chunk :=
  vec_tree_hash_root H c n s.vec

/-- `RuntimeVariableList::tree_hash_root`
(src/runtime_types/runtime_variable_list.rs, lines 236-240). -/
def RuntimeVariableList.tree_hash_root (H : Chunk → Chunk → Chunk)
    (c : TreeHashCodec α) (s : RuntimeVariableList α) : Chunk :=
  mix_in_length H (runtime_vec_tree_hash_root H c s.maxLen s.vec) s.vec.length

/-- Modelled from the spec: `tree_hash::merkle_root(bytes, min_nodes)` of the
external `tree_hash` crate — merkleize the byte stream with at least
`min_nodes` leaves (the data itself occupies `ceil(len / 32)` leaves). -/
def merkle_root (H : Chunk → Chunk → Chunk) (bytes : Bytes)
    (minNodes : Nat) : Chunk :=
  merkleize H (max (divCeil bytes.length 32) minNodes) (chunkify bytes)

/-- The `tree_hash::TreeHash` implementation of `u8` in the external
`tree_hash` crate: a `Basic` type with packing factor 32 whose packed encoding
is the byte itself. -/
def byteTH : TreeHashCodec (Fin 256) where
  kind := .Basic
  packingFactor := 32
  packedEncoding := fun b => [b.val]
  root := fun b => padChunk [b.val]

/-- `VariableListU8<N>` (src/variable_list_u8.rs): a newtype over
`VariableList<u8, N>`. -/
structure VariableListU8 where
  inner : VariableList (Fin 256)
deriving DecidableEq, Repr

/-- `VariableListU8::tree_hash_root` (src/variable_list_u8.rs, lines 142-145):
`merkle_root(self, 0)` — note the minimum leaf count `0`, so the leaf count is
derived from the *current* byte length — then the length mix-in. -/
def VariableListU8.tree_hash_root (H : Chunk → Chunk → Chunk)
    (s : VariableListU8) : Chunk :=
  mix_in_length H (merkle_root H (s.inner.vec.map Fin.val) 0)
    s.inner.vec.length

/-- `VariableListU8::ssz_append` (src/variable_list_u8.rs, lines 161-163):
the raw bytes. -/
def VariableListU8.sszAppend (s : VariableListU8) : Bytes :=
  s.inner.vec.map Fin.val

/-- `FixedVectorU8<N>` (src/fixed_vector_u8.rs): a newtype over
`FixedVector<u8, N>`. -/
structure FixedVectorU8 where
  inner : FixedVector (Fin 256)
deriving DecidableEq, Repr

/-- `FixedVectorU8::tree_hash_root` (src/fixed_vector_u8.rs):
`vec_tree_hash_root::<u8>(&self.inner, N::to_usize())` — capacity-shaped, like
the generic vector. -/
def FixedVectorU8.tree_hash_root (H : Chunk → Chunk → Chunk) (n : Nat)
    (s : FixedVectorU8) : Chunk :=
  vec_tree_hash_root H byteTH n s.inner.vec

/-! ## Generalized-index resolver and proof generator (src/tree_hash.rs) -/

/-- `tree_hash::prototype::Error`, the error type of the proof generator. -/
inductive ProofError where
  | Oops
deriving DecidableEq, Repr

/-- The packed-chunk count of a `Basic`-element tree with declared capacity
`n`: `(target_size + packing_factor - 1) / packing_factor` as written in the
source. -/
def basicChunkCount (c : TreeHashCodec α) (n : Nat) : Nat :=
  (n + c.packingFactor - 1) / c.packingFactor

/-- `effective_size` as computed in `generate_proof` (src/tree_hash.rs, lines
36-46): the padded (power-of-two) leaf-layer width of the data tree. -/
def effectiveSize (c : TreeHashCodec α) (n : Nat) : Nat :=
  match c.kind with
  | .Basic => nextPow2 (basicChunkCount c n)
  | _ => nextPow2 n

/-- The packed leaf at `chunkIndex` (src/tree_hash.rs, lines 83-90): a
one-leaf `MerkleHasher` fed the packed encodings of
`vec[chunk_index * packing_factor .. min(start + packing_factor, len)]`. -/
def packLeaf (H : Chunk → Chunk → Chunk) (c : TreeHashCodec α) (v : List α)
    (chunkIndex : Nat) : Chunk :=
  merkleize H 1
    (chunkify ((((v.drop (chunkIndex * c.packingFactor)).take
      c.packingFactor).map c.packedEncoding).flatten))

/-- The leaf region of `compute_node_hash_at_gindex` (src/tree_hash.rs, lines
80-92 and 105-110), reached when `gindex >= effective_size`: for `Basic`
elements the packed leaf chunk when `gindex - effective_size` is below the
capacity-derived chunk count and the all-zero chunk beyond it; for composite
elements the element's own root when `gindex - effective_size` is below the
*actual* vector length and the all-zero chunk beyond it.  (The source spells
this region out once per `tree_hash_type` arm; it is factored into one helper
here.) -/
def leafNodeHash (H : Chunk → Chunk → Chunk) (c : TreeHashCodec α)
    (n : Nat) (v : List α) (effSize gindex : Nat) : Chunk :=
  match c.kind with
  | .Basic =>
    if gindex - effSize < basicChunkCount c n then
      packLeaf H c v (gindex - effSize)
    else zeroChunk
  | _ =>
    if h : gindex - effSize < v.length then
      c.root (v.get ⟨gindex - effSize, h⟩)
    else zeroChunk

/-- `compute_node_hash_at_gindex` (src/tree_hash.rs, lines 65-123): the leaf
value (or zero chunk) in the leaf region, and in the internal region
(`gindex < effective_size`) the hash of the two recursively computed children
(the source combines them with `tree_hash::merkle_root(left || right, 0)`,
which on two 32-byte `Hash256` values is exactly one pairwise hash).

The Rust recursion decreases because the child gindex doubles at each internal
step until it reaches the leaf region; it is only ever invoked with
`gindex ≥ 1`.  We make the recursion structural with a fuel argument — the
`fuel = 0` internal fallback is unreachable — and callers pass fuel
`effective_size`, which `computeNodeHash_stable` below proves is more than
enough for every `gindex ≥ 1`. -/
def computeNodeHash (H : Chunk → Chunk → Chunk) (c : TreeHashCodec α)
    (n : Nat) (v : List α) (effSize : Nat) : Nat → Nat → Chunk
  | 0, gindex =>
    if effSize ≤ gindex then leafNodeHash H c n v effSize gindex
    else zeroChunk
  | fuel + 1, gindex =>
    if effSize ≤ gindex then leafNodeHash H c n v effSize gindex
    else
      H (computeNodeHash H c n v effSize fuel (2 * gindex))
        (computeNodeHash H c n v effSize fuel (2 * gindex + 1))

/-- The sibling gindex: `g - 1` when `g` is odd (right child), `g + 1` when
`g` is even (left child). -/
def siblingGindex (g : Nat) : Nat := if g % 2 = 1 then g - 1 else g + 1

/-- The `while current_gindex > 1` loop of `generate_proof` (src/tree_hash.rs,
lines 48-60), fuel-based: one sibling hash is appended per iteration and the
gindex halves, so the loop runs `floor(log2 g)` times; a fuel of `g`
suffices. -/
def generateProofAux (H : Chunk → Chunk → Chunk) (c : TreeHashCodec α)
    (n : Nat) (v : List α) : Nat → Nat → List Chunk
  | 0, _ => []
  | fuel + 1, g =>
    if g ≤ 1 then []
    else
      computeNodeHash H c n v (effectiveSize c n) (effectiveSize c n)
          (siblingGindex g) ::
        generateProofAux H c n v fuel (g / 2)

/-- `generate_proof` (src/tree_hash.rs, lines 27-63). -/
def generate_proof (H : Chunk → Chunk → Chunk) (c : TreeHashCodec α)
    (n : Nat) (v : List α) (gindex : Nat) : List Chunk :=
  generateProofAux H c n v gindex gindex

/-- `generate_proof_for_vec` (src/tree_hash.rs, lines 9-25): rejects gindex 0;
a zero-capacity target yields an empty proof. -/
def generate_proof_for_vec (H : Chunk → Chunk → Chunk) (c : TreeHashCodec α)
    (n : Nat) (v : List α) (gindex : Nat) :
    Except ProofError (List Chunk) :=
  if gindex = 0 then .error .Oops
  else if n = 0 then .ok []
  else .ok (generate_proof H c n v gindex)

/-! ## Equality and std-hashing -/

/-- `impl PartialEq for VariableList` (src/variable_list.rs, lines 59-63):
`self.vec == other.vec`; the phantom capacity cannot participate. -/
def VariableList.peq (a b : VariableList α) : Prop := a.vec = b.vec

/-- `impl PartialEq for FixedVector` (src/fixed_vector.rs, lines 55-59). -/
def FixedVector.peq (a b : FixedVector α) : Prop := a.vec = b.vec

/-- `#[educe(PartialEq)]` on `RuntimeVariableList`
(src/runtime_types/runtime_variable_list.rs, lines 45-46): the derive compares
*all* fields, i.e. the backing vector and the stored `max_len`. -/
def RuntimeVariableList.peq (a b : RuntimeVariableList α) : Prop :=
  a.vec = b.vec ∧ a.maxLen = b.maxLen

/-- `impl Hash for VariableList` (src/variable_list.rs, lines 65-69): feeds
only `self.vec` to the hasher; modelled parametrically in the hasher `h`. -/
def VariableList.stdHash (h : List α → β) (a : VariableList α) : β := h a.vec

/-- `impl Hash for FixedVector` (src/fixed_vector.rs, lines 61-65). -/
def FixedVector.stdHash (h : List α → β) (a : FixedVector α) : β := h a.vec

/-- `#[educe(Hash)]` on `RuntimeVariableList`: the derive feeds every field to
the hasher, so the hasher sees the pair `(vec, max_len)`. -/
def RuntimeVariableList.stdHash (h : List α × Nat → β)
    (a : RuntimeVariableList α) : β :=
  h (a.vec, a.maxLen)

/-! ## Claim C4 -/

/-- C4: `FixedVector::new` succeeds iff the input length equals the capacity
`n`, `VariableList::new` / `RuntimeVariableList::new` succeed iff the input
length is at most the capacity; on success the element order is preserved
unchanged; on failure the error carries the offending length and the
capacity. -/
theorem C4_new_length_invariant (α : Type) :
    (∀ (n : Nat) (v : List α),
        (∃ fv : FixedVector α, FixedVector.new n v = .ok fv ∧ fv.vec = v) ↔
          v.length = n) ∧
    (∀ (n : Nat) (v : List α), v.length ≠ n →
        FixedVector.new n v = .error (.OutOfBounds v.length n)) ∧
    (∀ (n : Nat) (v : List α),
        (∃ vl : VariableList α, VariableList.new n v = .ok vl ∧ vl.vec = v) ↔
          v.length ≤ n) ∧
    (∀ (n : Nat) (v : List α), ¬ v.length ≤ n →
        VariableList.new n v = .error (.OutOfBounds v.length n)) ∧
    (∀ (m : Nat) (v : List α),
        (∃ rl : RuntimeVariableList α,
            RuntimeVariableList.new v m = .ok rl ∧ rl.vec = v ∧
              rl.maxLen = m) ↔
          v.length ≤ m) ∧
    (∀ (m : Nat) (v : List α), ¬ v.length ≤ m →
        RuntimeVariableList.new v m = .error (.OutOfBounds v.length m)) := by
  refine ⟨?_, ?_, ?_, ?_, ?_, ?_⟩
  · intro n v
    constructor
    · rintro ⟨fv, hok, -⟩
      by_contra h
      simp [FixedVector.new, h] at hok
    · intro h
      exact ⟨⟨v⟩, by simp [FixedVector.new, h], rfl⟩
  · intro n v h
    simp [FixedVector.new, h]
  · intro n v
    constructor
    · rintro ⟨vl, hok, -⟩
      by_contra h
      simp [VariableList.new, h] at hok
    · intro h
      exact ⟨⟨v⟩, by simp [VariableList.new, h], rfl⟩
  · intro n v h
    simp [VariableList.new, h]
  · intro m v
    constructor
    · rintro ⟨rl, hok, -⟩
      by_contra h
      simp [RuntimeVariableList.new, h] at hok
    · intro h
      exact ⟨⟨v, m⟩, by simp [RuntimeVariableList.new, h], rfl, rfl⟩
  · intro m v h
    simp [RuntimeVariableList.new, h]

/-- Witness for C4 at concrete inputs: a length-2 vector is rejected by a
capacity-3 `FixedVector` with the offending length and capacity. -/
theorem C4_new_length_invariant_witness :
    FixedVector.new 3 [(1 : Nat), 2] = .error (.OutOfBounds 2 3) :=
  (C4_new_length_invariant Nat).2.1 3 [1, 2] (by decide)

/-! ## Claim C5 -/

/-- C5: `push` succeeds (appending at the end) iff the current length is below
the capacity; at capacity it fails with `OutOfBounds` carrying the *attempted*
new length `L + 1` and the capacity, and the failing call leaves the container
unchanged.  (`RuntimeVariableList::push` computes the payload with
`saturating_add(1)`, so its `L + 1` payload is stated under
`max_len < usize::MAX`, which always holds for a Rust `Vec` length.) -/
theorem C5_push_at_capacity (α : Type) :
    (∀ (n : Nat) (s : VariableList α) (x : α),
        ((VariableList.push n s x).1 = .ok ()) ↔ s.vec.length < n) ∧
    (∀ (n : Nat) (s : VariableList α) (x : α), s.vec.length < n →
        VariableList.push n s x = (.ok (), ⟨s.vec ++ [x]⟩)) ∧
    (∀ (n : Nat) (s : VariableList α) (x : α), s.vec.length = n →
        VariableList.push n s x = (.error (.OutOfBounds (n + 1) n), s)) ∧
    (∀ (s : RuntimeVariableList α) (x : α),
        ((RuntimeVariableList.push s x).1 = .ok ()) ↔
          s.vec.length < s.maxLen) ∧
    (∀ (s : RuntimeVariableList α) (x : α), s.vec.length < s.maxLen →
        RuntimeVariableList.push s x = (.ok (), ⟨s.vec ++ [x], s.maxLen⟩)) ∧
    (∀ (s : RuntimeVariableList α) (x : α), s.vec.length = s.maxLen →
        s.maxLen < USIZE_MAX →
        RuntimeVariableList.push s x =
          (.error (.OutOfBounds (s.maxLen + 1) s.maxLen), s)) := by
  refine ⟨?_, ?_, ?_, ?_, ?_, ?_⟩
  · intro n s x
    by_cases h : s.vec.length < n <;> simp [VariableList.push, h]
  · intro n s x h
    simp [VariableList.push, h]
  · intro n s x h
    simp [VariableList.push, h]
  · intro s x
    by_cases h : s.vec.length < s.maxLen <;> simp [RuntimeVariableList.push, h]
  · intro s x h
    simp [RuntimeVariableList.push, h]
  · intro s x h hmax
    have hlt : ¬ s.vec.length < s.maxLen := by omega
    have hmin : min (s.vec.length + 1) USIZE_MAX = s.maxLen + 1 := by
      rw [h]
      exact Nat.min_eq_left (Nat.succ_le_of_lt hmax)
    simp only [RuntimeVariableList.push, if_neg hlt, hmin]

/-- Witness for C5 at concrete inputs: pushing onto a full capacity-2 list
fails with attempted length 3 against capacity 2 and leaves the list
unchanged. -/
theorem C5_push_at_capacity_witness :
    VariableList.push 2 (⟨[10, 20]⟩ : VariableList Nat) 30 =
      (.error (.OutOfBounds 3 2), ⟨[10, 20]⟩) :=
  (C5_push_at_capacity Nat).2.2.1 2 ⟨[10, 20]⟩ 30 (by decide)

/-! ## Claim C10 -/

/-- C10: the infallible `From<Vec<T>>` conversion never errors — when the
input is longer than the capacity it silently truncates, so the result always
has length `min (len v) n` and holds exactly the first `min (len v) n`
elements of `v` in order. -/
theorem C10_from_vec_truncates (α : Type) :
    (∀ (n : Nat) (v : List α),
        (VariableList.fromVec n v).vec.length = min v.length n) ∧
    (∀ (n : Nat) (v : List α), (VariableList.fromVec n v).vec = v.take n) ∧
    (∀ (n : Nat) (v : List α), v.length ≤ n →
        (VariableList.fromVec n v).vec = v) := by
  refine ⟨?_, ?_, ?_⟩
  · intro n v
    simp [VariableList.fromVec, Nat.min_comm]
  · intro n v
    rfl
  · intro n v h
    simp [VariableList.fromVec, List.take_of_length_le h]

/-- Witness for C10 at concrete inputs: a 4-element vector fed to a
capacity-6 list is preserved unchanged. -/
theorem C10_from_vec_truncates_witness :
    (VariableList.fromVec 6 [(1 : Nat), 2, 3, 4]).vec = [1, 2, 3, 4] :=
  (C10_from_vec_truncates Nat).2.2 6 [1, 2, 3, 4] (by decide)

/-! ## Claim C8 (corrected) -/

/-- C8 counterexample: two `RuntimeVariableList`s with equal ordered contents
but different declared capacities do *not* compare equal — the
`educe`-derived `PartialEq` compares the stored `max_len` field as well, so
the declared capacity does participate in equality for the runtime-capacity
container. -/
theorem C8_capacity_in_runtime_eq_counterexample :
    RuntimeVariableList.new [(0 : Nat)] 1 =
      .ok (⟨[0], 1⟩ : RuntimeVariableList Nat) ∧
    RuntimeVariableList.new [(0 : Nat)] 2 =
      .ok (⟨[0], 2⟩ : RuntimeVariableList Nat) ∧
    (⟨[0], 1⟩ : RuntimeVariableList Nat).vec =
      (⟨[0], 2⟩ : RuntimeVariableList Nat).vec ∧
    ¬ RuntimeVariableList.peq (⟨[0], 1⟩ : RuntimeVariableList Nat) ⟨[0], 2⟩ := by
  refine ⟨rfl, rfl, rfl, ?_⟩
  intro h
  exact absurd h.2 (by decide)

/-- C8 (amended): for the compile-time-capacity containers `VariableList` and
`FixedVector` — whose capacity is a phantom type absent from the value —
equality and std-hashing are defined purely over the ordered element
sequence, so containers constructed with different declared capacities but
equal contents compare equal and hash identically; for `RuntimeVariableList`
the derived equality and hashing additionally cover the stored `max_len`, so
there the declared capacity does participate. -/
theorem C8_eq_hash_content_only (α β : Type) (h : List α → β)
    (hr : List α × Nat → β) :
    (∀ a b : VariableList α, VariableList.peq a b ↔ a.vec = b.vec) ∧
    (∀ (n₁ n₂ : Nat) (v w : List α) (a b : VariableList α),
        VariableList.new n₁ v = .ok a → VariableList.new n₂ w = .ok b →
        v = w →
        VariableList.peq a b ∧
          VariableList.stdHash h a = VariableList.stdHash h b) ∧
    (∀ a b : FixedVector α, FixedVector.peq a b ↔ a.vec = b.vec) ∧
    (∀ (n₁ n₂ : Nat) (v w : List α) (a b : FixedVector α),
        FixedVector.new n₁ v = .ok a → FixedVector.new n₂ w = .ok b →
        v = w →
        FixedVector.peq a b ∧
          FixedVector.stdHash h a = FixedVector.stdHash h b) ∧
    (∀ a b : RuntimeVariableList α,
        RuntimeVariableList.peq a b ↔
          a.vec = b.vec ∧ a.maxLen = b.maxLen) ∧
    (∀ a : RuntimeVariableList α,
        RuntimeVariableList.stdHash hr a = hr (a.vec, a.maxLen)) := by
  have hvl : ∀ (n : Nat) (v : List α) (a : VariableList α),
      VariableList.new n v = .ok a → a.vec = v := by
    intro n v a hok
    by_cases hle : v.length ≤ n
    · simp [VariableList.new, hle] at hok
      simp [← hok]
    · simp [VariableList.new, hle] at hok
  have hfv : ∀ (n : Nat) (v : List α) (a : FixedVector α),
      FixedVector.new n v = .ok a → a.vec = v := by
    intro n v a hok
    by_cases heq : v.length = n
    · simp [FixedVector.new, heq] at hok
      simp [← hok]
    · simp [FixedVector.new, heq] at hok
  refine ⟨fun a b => Iff.rfl, ?_, fun a b => Iff.rfl, ?_, fun a b => Iff.rfl,
    fun a => rfl⟩
  · intro n₁ n₂ v w a b ha hb hvw
    have h₁ := hvl n₁ v a ha
    have h₂ := hvl n₂ w b hb
    constructor
    · show a.vec = b.vec
      rw [h₁, h₂, hvw]
    · show h a.vec = h b.vec
      rw [h₁, h₂, hvw]
  · intro n₁ n₂ v w a b ha hb hvw
    have h₁ := hfv n₁ v a ha
    have h₂ := hfv n₂ w b hb
    constructor
    · show a.vec = b.vec
      rw [h₁, h₂, hvw]
    · show h a.vec = h b.vec
      rw [h₁, h₂, hvw]

/-- Witness for C8 at concrete inputs: lists built with capacities 5 and 9
from the same contents compare equal and hash identically. -/
theorem C8_eq_hash_content_only_witness :
    VariableList.peq (⟨[3, 4]⟩ : VariableList Nat) ⟨[3, 4]⟩ ∧
    VariableList.stdHash List.length (⟨[(3 : Nat), 4]⟩ : VariableList Nat) =
      VariableList.stdHash List.length (⟨[3, 4]⟩ : VariableList Nat) :=
  (C8_eq_hash_content_only Nat Nat List.length Prod.snd).2.1 5 9 [3, 4] [3, 4]
    ⟨[3, 4]⟩ ⟨[3, 4]⟩ (by decide) (by decide) rfl

/-! ## Claim C6 (corrected) -/

/-- C6 counterexample: decoding the empty byte string as a
`VariableList<u8, 4>` — an element type with non-zero fixed encoded length —
*succeeds* with the empty list instead of failing with `InvalidByteLength`
(src/variable_list.rs, lines 288-289). -/
theorem C6_variable_decoders_accept_empty_counterexample :
    VariableList.fromSszBytes byteCodec 4 [] =
      .ok (⟨[]⟩ : VariableList (Fin 256)) ∧
    VariableList.fromSszBytes byteCodec 4 [] ≠
      .error (.InvalidByteLength 0 1) ∧
    RuntimeVariableList.fromSszBytes byteCodec [] 4 =
      .ok (⟨[], 4⟩ : RuntimeVariableList (Fin 256)) := by
  refine ⟨rfl, ?_, rfl⟩
  intro h
  exact absurd h (by decide)

/-- C6 (amended): on empty input only the Fixed-shaped decoder fails — with
`InvalidByteLength` reporting actual length 0 against expected minimum 1 —
while the Variable-shaped decoders (`VariableList`, `RuntimeVariableList`)
succeed and return the empty container. -/
theorem C6_empty_input_behaviour (α : Type) (c : SszCodec α) :
    (∀ n : Nat,
        FixedVector.fromSszBytes c n [] = .error (.InvalidByteLength 0 1)) ∧
    (∀ n : Nat, VariableList.fromSszBytes c n [] = .ok ⟨[]⟩) ∧
    (∀ m : Nat, RuntimeVariableList.fromSszBytes c [] m = .ok ⟨[], m⟩) :=
  ⟨fun _ => rfl, fun _ => rfl, fun _ => rfl⟩

/-! ## Claim C1 (corrected): codec round-trip -/

theorem sszAppendFixed_length (c : SszCodec α)
    (hlen : ∀ a, (c.encode a).length = c.fixedLen) (v : List α) :
    (sszAppendFixed c v).length = v.length * c.fixedLen := by
  induction v with
  | nil => simp [sszAppendFixed]
  | cons a v ih =>
    simp only [sszAppendFixed, List.map_cons, List.flatten_cons,
      List.length_append, List.length_cons] at *
    rw [ih, hlen a]
    ring

theorem chunksAux_flatten (k : Nat) (hk : 0 < k) :
    ∀ (blocks : List Bytes) (fuel : Nat), blocks.length ≤ fuel →
      (∀ b ∈ blocks, b.length = k) →
      chunksAux k fuel blocks.flatten = blocks := by
  intro blocks
  induction blocks with
  | nil =>
    intro fuel _ _
    cases fuel <;> rfl
  | cons b bs ih =>
    intro fuel hfuel hb
    cases fuel with
    | zero => simp at hfuel
    | succ f =>
      have hbk : b.length = k := hb b (List.mem_cons_self b bs)
      have hbne : b ≠ [] := by
        intro hnil
        rw [hnil] at hbk
        simp at hbk
        omega
      obtain ⟨x, xs, hx⟩ := List.exists_cons_of_ne_nil hbne
      have ht : (b ++ bs.flatten).take k = b := by
        rw [← hbk]
        exact List.take_left _ _
      have hd : (b ++ bs.flatten).drop k = bs.flatten := by
        rw [← hbk]
        exact List.drop_left _ _
      have hstep : chunksAux k (f + 1) (b ++ bs.flatten) =
          (b ++ bs.flatten).take k ::
            chunksAux k f ((b ++ bs.flatten).drop k) := by
        rw [hx, List.cons_append]
        rfl
      rw [List.flatten_cons, hstep, ht, hd,
        ih f (Nat.le_of_succ_le_succ hfuel)
          (fun b' hmem => hb b' (List.mem_cons_of_mem _ hmem))]

theorem chunksOf_encode (c : SszCodec α) (hfl : 0 < c.fixedLen)
    (hlen : ∀ a, (c.encode a).length = c.fixedLen) (v : List α) :
    chunksOf c.fixedLen (sszAppendFixed c v) = v.map c.encode := by
  have hk : c.fixedLen ≠ 0 := Nat.pos_iff_ne_zero.mp hfl
  have hblocks : ∀ b ∈ v.map c.encode, b.length = c.fixedLen := by
    intro b hmem
    obtain ⟨a, -, ha⟩ := List.mem_map.mp hmem
    rw [← ha]
    exact hlen a
  have hfuel : (v.map c.encode).length ≤ (sszAppendFixed c v).length := by
    rw [sszAppendFixed_length c hlen, List.length_map]
    calc v.length = v.length * 1 := by ring
    _ ≤ v.length * c.fixedLen := Nat.mul_le_mul_left _ hfl
  simp only [chunksOf, if_neg hk, sszAppendFixed]
  exact chunksAux_flatten c.fixedLen hfl (v.map c.encode) _
    (by simpa [sszAppendFixed] using hfuel) hblocks

theorem decodeAll_encode (c : SszCodec α) (hfl : 0 < c.fixedLen)
    (hlen : ∀ a, (c.encode a).length = c.fixedLen)
    (hrt : ∀ a, c.decode (c.encode a) = .ok a) (v : List α) :
    decodeAll c (sszAppendFixed c v) = .ok v := by
  unfold decodeAll
  rw [chunksOf_encode c hfl hlen]
  induction v with
  | nil => rfl
  | cons a v ih =>
    simp only [List.map_cons, List.mapM_cons, hrt a, ih]
    rfl

theorem sszAppend_eq_nil_imp (c : SszCodec α) (hfl : 0 < c.fixedLen)
    (hlen : ∀ a, (c.encode a).length = c.fixedLen) (v : List α)
    (h : (sszAppendFixed c v).isEmpty = true) : v = [] := by
  have hnil : sszAppendFixed c v = [] := by
    cases hbb : sszAppendFixed c v with
    | nil => rfl
    | cons y ys =>
      rw [hbb] at h
      simp at h
  have hlen0 : v.length * c.fixedLen = 0 := by
    rw [← sszAppendFixed_length c hlen v, hnil]
    rfl
  rcases Nat.mul_eq_zero.mp hlen0 with h0 | h0
  · exact List.length_eq_zero.mp h0
  · omega

/-- C1 counterexample: a `FixedVector` with capacity `N = 0` (the empty
vector of an element type with fixed encoded length 1) encodes to the empty
byte string, and decoding that encoding at the same element type and capacity
does *not* succeed — it fails with `InvalidByteLength { len: 0, expected: 1 }`
(src/fixed_vector.rs, lines 303-307). -/
theorem C1_roundtrip_counterexample :
    sszAppendFixed byteCodec ([] : List (Fin 256)) = [] ∧
    FixedVector.fromSszBytes byteCodec 0
        (sszAppendFixed byteCodec ([] : List (Fin 256))) =
      .error (.InvalidByteLength 0 1) ∧
    FixedVector.fromSszBytes byteCodec 0
        (sszAppendFixed byteCodec ([] : List (Fin 256))) ≠
      .ok ⟨[]⟩ := by
  refine ⟨rfl, rfl, ?_⟩
  decide

/-- C1 (amended): for every lawful fixed-encoded-length element codec (positive
fixed length, constant-length encoding, decode inverting encode), decoding the
SSZ encoding of a container at the same element type and capacity succeeds and
yields the container back, and `ssz_bytes_len` equals the byte length of the
encoding — for `VariableList` and `RuntimeVariableList` unconditionally, and
for `FixedVector` provided the capacity `N` is positive (a capacity-0
`FixedVector` encodes to the empty byte string, which its own decoder
rejects; SSZ itself declares a zero-length vector illegal).  Variable-encoded-
length element types delegate decoding to the external `ssz` crate
collaborator and are outside this embedding. -/
theorem C1_roundtrip (α : Type) (c : SszCodec α)
    (hfl : 0 < c.fixedLen)
    (hlen : ∀ a, (c.encode a).length = c.fixedLen)
    (hrt : ∀ a, c.decode (c.encode a) = .ok a) :
    (∀ (maxLen : Nat) (v : List α), v.length ≤ maxLen →
        VariableList.fromSszBytes c maxLen (sszAppendFixed c v) = .ok ⟨v⟩ ∧
        sszBytesLenFixed c v = (sszAppendFixed c v).length) ∧
    (∀ (n : Nat) (v : List α), v.length = n → 0 < n →
        FixedVector.fromSszBytes c n (sszAppendFixed c v) = .ok ⟨v⟩ ∧
        sszBytesLenFixed c v = (sszAppendFixed c v).length) ∧
    (∀ s : RuntimeVariableList α, s.vec.length ≤ s.maxLen →
        RuntimeVariableList.fromSszBytes c (sszAppendFixed c s.vec)
            s.maxLen = .ok s ∧
        sszBytesLenFixed c s.vec = (sszAppendFixed c s.vec).length) := by
  have hk0 : c.fixedLen ≠ 0 := Nat.pos_iff_ne_zero.mp hfl
  have hnum : ∀ v : List α,
      (sszAppendFixed c v).length / c.fixedLen = v.length := by
    intro v
    rw [sszAppendFixed_length c hlen v]
    exact Nat.mul_div_cancel _ hfl
  have hbl : ∀ v : List α,
      sszBytesLenFixed c v = (sszAppendFixed c v).length := by
    intro v
    rw [sszAppendFixed_length c hlen v]
    rfl
  refine ⟨?_, ?_, ?_⟩
  · intro maxLen v hv
    refine ⟨?_, hbl v⟩
    unfold VariableList.fromSszBytes
    split_ifs with h1 h2
    · rw [sszAppend_eq_nil_imp c hfl hlen v h1]
    · rw [hnum v] at h2
      omega
    · rw [decodeAll_encode c hfl hlen hrt v]
      show Except.ok (VariableList.fromVec maxLen v) = _
      rw [VariableList.fromVec, List.take_of_length_le hv]
  · intro n v hvn hn
    refine ⟨?_, hbl v⟩
    unfold FixedVector.fromSszBytes
    split_ifs with h1 h2
    · have := sszAppend_eq_nil_imp c hfl hlen v h1
      rw [this] at hvn
      simp at hvn
      omega
    · rw [hnum v] at h2
      exact absurd hvn h2
    · rw [decodeAll_encode c hfl hlen hrt v]
      simp only [FixedVector.new, if_pos hvn]
  · intro s hv
    refine ⟨?_, hbl s.vec⟩
    unfold RuntimeVariableList.fromSszBytes
    split_ifs with h1 h2
    · have := sszAppend_eq_nil_imp c hfl hlen s.vec h1
      rw [← this]
    · rw [hnum s.vec] at h2
      omega
    · rw [decodeAll_encode c hfl hlen hrt s.vec]
      rfl

/-- Witness for C1: the concrete byte codec round-trips a 2-element list at
capacity 4. -/
theorem C1_roundtrip_witness :
    VariableList.fromSszBytes byteCodec 4
        (sszAppendFixed byteCodec [(7 : Fin 256), 9]) = .ok ⟨[7, 9]⟩ ∧
    sszBytesLenFixed byteCodec [(7 : Fin 256), 9] =
      (sszAppendFixed byteCodec [(7 : Fin 256), 9]).length :=
  (C1_roundtrip (Fin 256) byteCodec (by decide) (fun a => rfl)
    (fun a => by simp [byteCodec, a.isLt])).1 4 [7, 9] (by decide)

/-! ## Claim C2: length mix-in -/

/-- C2: for Variable-shaped containers the tree hash root is
`mix_in_length(data_root, len)` — the hash of the capacity-shaped data root
concatenated with the *current* length as a little-endian value padded to 32
bytes — while `FixedVector`'s tree hash root is the data root alone, with no
length mix-in. -/
theorem C2_length_mixin (α : Type) (H : Chunk → Chunk → Chunk)
    (c : TreeHashCodec α) :
    (∀ (n : Nat) (s : VariableList α),
        VariableList.tree_hash_root H c n s =
          H (vec_tree_hash_root H c n s.vec)
            (toLEBytes 8 s.vec.length ++ List.replicate 24 0)) ∧
    (∀ s : RuntimeVariableList α,
        RuntimeVariableList.tree_hash_root H c s =
          H (runtime_vec_tree_hash_root H c s.maxLen s.vec)
            (toLEBytes 8 s.vec.length ++ List.replicate 24 0)) ∧
    (∀ (n : Nat) (s : FixedVector α),
        FixedVector.tree_hash_root H c n s = vec_tree_hash_root H c n s.vec) :=
  ⟨fun _ _ => rfl, fun _ => rfl, fun _ _ => rfl⟩

/-! ## Claim C3: capacity-shaped leaf count -/

/-- The leaf count of the data tree: `ceil(capacity / packing_factor)` for
`Basic` elements, the capacity itself for composite elements.  It is a
function of the element kind and the declared capacity only — the current
occupancy does not appear. -/
def leafCount (c : TreeHashCodec α) (n : Nat) : Nat :=
  match c.kind with
  | .Basic => (n + c.packingFactor - 1) / c.packingFactor
  | _ => n

/-- The real leaves of the data tree: packed element encodings chunked into
32-byte leaves for `Basic` elements, one element root per leaf for composite
elements. -/
def leaves (c : TreeHashCodec α) (v : List α) : List Chunk :=
  match c.kind with
  | .Basic => chunkify ((v.map c.packedEncoding).flatten)
  | _ => chunkify ((v.map c.root).flatten)

theorem div_ceil_eq (n k : Nat) (hk : 0 < k) :
    (n + k - 1) / k = divCeil n k := by
  have hmod := Nat.div_add_mod n k
  set q := n / k with hqdef
  set r := n % k with hrdef
  have hrk : r < k := Nat.mod_lt n hk
  by_cases hr : r = 0
  · have hn : n = k * q := by omega
    calc (n + k - 1) / k = ((k - 1) + q * k) / k := by
          rw [hn, Nat.mul_comm]
          congr 1
          omega
      _ = (k - 1) / k + q := Nat.add_mul_div_right _ _ hk
      _ = q := by
          rw [Nat.div_eq_of_lt (by omega)]
          omega
      _ = divCeil n k := by simp [divCeil, ← hqdef, ← hrdef, hr]
  · calc (n + k - 1) / k = ((r - 1) + (q + 1) * k) / k := by
          congr 1
          have hn : n = k * q + r := by omega
          rw [hn, Nat.succ_mul, Nat.mul_comm k q]
          omega
      _ = (r - 1) / k + (q + 1) := Nat.add_mul_div_right _ _ hk
      _ = q + 1 := by
          rw [Nat.div_eq_of_lt (by omega)]
          omega
      _ = divCeil n k := by simp [divCeil, ← hqdef, ← hrdef, hr]

theorem padChunk_of_length (l : Bytes) (h : l.length = 32) : padChunk l = l := by
  rw [padChunk, h]
  simp

theorem chunkify_roots (blocks : List Chunk)
    (hb : ∀ b ∈ blocks, b.length = 32) :
    chunkify blocks.flatten = blocks := by
  have hfuel : blocks.length ≤ blocks.flatten.length := by
    induction blocks with
    | nil => simp
    | cons b bs ih =>
      have hbk : b.length = 32 := hb b (List.mem_cons_self b bs)
      have := ih (fun b' hmem => hb b' (List.mem_cons_of_mem _ hmem))
      simp only [List.length_cons, List.flatten_cons, List.length_append]
      omega
  have hchunks : chunksOf 32 blocks.flatten = blocks := by
    simp only [chunksOf, if_neg (by omega : ¬ (32 : Nat) = 0)]
    exact chunksAux_flatten 32 (by omega) blocks _ hfuel hb
  rw [chunkify, hchunks]
  exact List.map_congr_left (fun b hmem => padChunk_of_length b (hb b hmem))
    |>.trans (List.map_id blocks)

/-- C3: the Merkle data root is computed over `ceil(N / packing_factor)` leaf
chunks for `Basic` (packed) element types and over exactly `N` leaves — one
element root per leaf — for composite element types; the leaf count is a
function of the declared capacity `N` alone, never of the container's current
length, and the runtime-capacity variant computes the identical root
(`div_ceil` agreeing with the `(N + factor - 1) / factor` form). -/
theorem C3_capacity_shaped_leaf_count (α : Type) (H : Chunk → Chunk → Chunk)
    (c : TreeHashCodec α) (hpf : 0 < c.packingFactor)
    (hroot : ∀ a, (c.root a).length = 32) :
    (∀ (n : Nat) (v : List α),
        vec_tree_hash_root H c n v = merkleize H (leafCount c n) (leaves c v)) ∧
    (∀ (n : Nat) (v : List α),
        runtime_vec_tree_hash_root H c n v = vec_tree_hash_root H c n v) ∧
    (c.kind = .Basic →
        ∀ n : Nat, leafCount c n = divCeil n c.packingFactor) ∧
    (c.kind ≠ .Basic →
        (∀ n : Nat, leafCount c n = n) ∧
        ∀ v : List α, leaves c v = v.map c.root) := by
  refine ⟨?_, ?_, ?_, ?_⟩
  · intro n v
    unfold vec_tree_hash_root leafCount leaves
    cases c.kind <;> rfl
  · intro n v
    unfold vec_tree_hash_root runtime_vec_tree_hash_root
    cases hkind : c.kind <;>
      simp only [div_ceil_eq n c.packingFactor hpf]
  · intro hkind n
    unfold leafCount
    rw [hkind]
    exact div_ceil_eq n c.packingFactor hpf
  · intro hkind
    constructor
    · intro n
      unfold leafCount
      cases hk : c.kind
      · exact absurd hk hkind
      all_goals rfl
    · intro v
      unfold leaves
      have hblocks : ∀ b ∈ v.map c.root, b.length = 32 := by
        intro b hmem
        obtain ⟨a, -, ha⟩ := List.mem_map.mp hmem
        rw [← ha]
        exact hroot a
      cases hk : c.kind
      · exact absurd hk hkind
      all_goals exact chunkify_roots (v.map c.root) hblocks

/-- Witness for C3: the `u8` element codec (packing factor 32) at capacity 100
has `ceil(100 / 32) = 4` leaf chunks, independent of the current data. -/
theorem C3_capacity_shaped_leaf_count_witness :
    vec_tree_hash_root (fun a _ => a) byteTH 100 [(1 : Fin 256)] =
      merkleize (fun a _ => a) (leafCount byteTH 100)
        (leaves byteTH [(1 : Fin 256)]) ∧
    leafCount byteTH 100 = 4 :=
  ⟨(C3_capacity_shaped_leaf_count (Fin 256) (fun a _ => a) byteTH (by decide)
      (fun a => by simp [byteTH, padChunk])).1 100 [1],
    by decide⟩

/-! ## Claim C7: proof generation -/

theorem log2floorAux_eq (n : Nat) : ∀ fuel, n ≤ fuel →
    log2floorAux fuel n = log2floor n := by
  induction n using Nat.strong_induction_on with
  | _ n ih =>
    intro fuel hfuel
    cases fuel with
    | zero =>
      have hn : n = 0 := by omega
      subst hn
      rfl
    | succ f =>
      by_cases hn : n ≤ 1
      · interval_cases n <;> rfl
      · have h2 : 2 ≤ n := by omega
        obtain ⟨m, hm⟩ : ∃ m, n = m + 1 := ⟨n - 1, by omega⟩
        have hdiv : n / 2 < n := by omega
        have hdf : n / 2 ≤ f := by omega
        have hdm : n / 2 ≤ m := by omega
        show log2floorAux (f + 1) n = log2floorAux n n
        rw [hm]
        simp only [log2floorAux, if_neg (show ¬ m + 1 ≤ 1 by omega)]
        rw [← hm, ih (n / 2) hdiv f hdf, ih (n / 2) hdiv m hdm]

theorem log2floor_step (g : Nat) (h : 2 ≤ g) :
    log2floor g = log2floor (g / 2) + 1 := by
  obtain ⟨m, hm⟩ : ∃ m, g = m + 1 := ⟨g - 1, by omega⟩
  show log2floorAux g g = log2floor (g / 2) + 1
  rw [hm]
  simp only [log2floorAux, if_neg (show ¬ m + 1 ≤ 1 by omega)]
  rw [← hm, log2floorAux_eq (g / 2) m (by omega)]

theorem generateProofAux_eq (H : Chunk → Chunk → Chunk) (c : TreeHashCodec α)
    (n : Nat) (v : List α) :
    ∀ g fuel, g ≤ fuel →
      generateProofAux H c n v fuel g = generate_proof H c n v g := by
  intro g
  induction g using Nat.strong_induction_on with
  | _ g ih =>
    intro fuel hfuel
    by_cases hg : g ≤ 1
    · cases fuel with
      | zero => cases g <;> first | rfl | omega
      | succ f =>
        unfold generate_proof
        cases g with
        | zero => rfl
        | succ m =>
          have hm : m = 0 := by omega
          subst hm
          rfl
    · have h2 : 2 ≤ g := by omega
      obtain ⟨f, hf⟩ : ∃ f, fuel = f + 1 := ⟨fuel - 1, by omega⟩
      obtain ⟨m, hm⟩ : ∃ m, g = m + 1 := ⟨g - 1, by omega⟩
      subst hf
      have hstep₁ : generateProofAux H c n v (f + 1) g =
          computeNodeHash H c n v (effectiveSize c n) (effectiveSize c n)
              (siblingGindex g) ::
            generateProofAux H c n v f (g / 2) := by
        simp only [generateProofAux, if_neg hg]
      have hstep₂ : generateProofAux H c n v g g =
          computeNodeHash H c n v (effectiveSize c n) (effectiveSize c n)
              (siblingGindex g) ::
            generateProofAux H c n v m (g / 2) := by
        rw [hm]
        simp only [generateProofAux, if_neg (show ¬ m + 1 ≤ 1 by omega)]
      unfold generate_proof
      rw [hstep₁, hstep₂,
        ih (g / 2) (by omega) f (by omega),
        ih (g / 2) (by omega) m (by omega)]

theorem generate_proof_step (H : Chunk → Chunk → Chunk) (c : TreeHashCodec α)
    (n : Nat) (v : List α) (g : Nat) (h : 2 ≤ g) :
    generate_proof H c n v g =
      computeNodeHash H c n v (effectiveSize c n) (effectiveSize c n)
          (siblingGindex g) ::
        generate_proof H c n v (g / 2) := by
  obtain ⟨m, hm⟩ : ∃ m, g = m + 1 := ⟨g - 1, by omega⟩
  have h1 : generate_proof H c n v g = generateProofAux H c n v g g := rfl
  rw [h1, hm]
  simp only [generateProofAux, if_neg (show ¬ m + 1 ≤ 1 by omega)]
  rw [← hm, generateProofAux_eq H c n v (g / 2) m (by omega)]

theorem generate_proof_length (H : Chunk → Chunk → Chunk)
    (c : TreeHashCodec α) (n : Nat) (v : List α) :
    ∀ g, 1 ≤ g → (generate_proof H c n v g).length = log2floor g := by
  intro g
  induction g using Nat.strong_induction_on with
  | _ g ih =>
    intro hg
    by_cases h2 : 2 ≤ g
    · rw [generate_proof_step H c n v g h2, List.length_cons,
        ih (g / 2) (by omega) (by omega), log2floor_step g h2]
    · have h1 : g = 1 := by omega
      subst h1
      rfl

/-- The result of `compute_node_hash_at_gindex` does not depend on the fuel,
as long as the fuel is large enough that doubling the gindex that many times
escapes the internal region: the Rust recursion (invoked with `gindex ≥ 1`)
always terminates and the fuel-based embedding agrees with it. -/
theorem computeNodeHash_stable (H : Chunk → Chunk → Chunk)
    (c : TreeHashCodec α) (n : Nat) (v : List α) (es : Nat) :
    ∀ fuel₁ fuel₂ g, 1 ≤ g → es ≤ g * 2 ^ fuel₁ → es ≤ g * 2 ^ fuel₂ →
      computeNodeHash H c n v es fuel₁ g =
        computeNodeHash H c n v es fuel₂ g := by
  intro fuel₁
  induction fuel₁ with
  | zero =>
    intro fuel₂ g hg h1 h2
    have hle : es ≤ g := by simpa using h1
    cases fuel₂ <;> simp only [computeNodeHash, if_pos hle]
  | succ f ih =>
    intro fuel₂ g hg h1 h2
    by_cases hle : es ≤ g
    · cases fuel₂ <;> simp only [computeNodeHash, if_pos hle]
    · cases fuel₂ with
      | zero =>
        exfalso
        simp at h2
        omega
      | succ f₂ =>
        have hsplit : ∀ f' : Nat, es ≤ g * 2 ^ (f' + 1) →
            es ≤ 2 * g * 2 ^ f' ∧ es ≤ (2 * g + 1) * 2 ^ f' := by
          intro f' hf
          have heq : g * 2 ^ (f' + 1) = 2 * g * 2 ^ f' := by ring
          rw [heq] at hf
          exact ⟨hf, le_trans hf (Nat.mul_le_mul (by omega) (le_refl _))⟩
        obtain ⟨hb1, hb1'⟩ := hsplit f h1
        obtain ⟨hb2, hb2'⟩ := hsplit f₂ h2
        simp only [computeNodeHash, if_neg hle]
        rw [ih f₂ (2 * g) (by omega) hb1 hb2,
          ih f₂ (2 * g + 1) (by omega) hb1' hb2']

/-- In the internal region, the node hash (at the fuel `effective_size` used
by `generate_proof`) is the hash of its two recursively computed children. -/
theorem computeNodeHash_internal (H : Chunk → Chunk → Chunk)
    (c : TreeHashCodec α) (n : Nat) (v : List α) (es g : Nat)
    (hg : 1 ≤ g) (hlt : g < es) :
    computeNodeHash H c n v es es g =
      H (computeNodeHash H c n v es es (2 * g))
        (computeNodeHash H c n v es es (2 * g + 1)) := by
  obtain ⟨e, he⟩ : ∃ e, es = e + 1 := ⟨es - 1, by omega⟩
  subst he
  have hunfold : computeNodeHash H c n v (e + 1) (e + 1) g =
      H (computeNodeHash H c n v (e + 1) e (2 * g))
        (computeNodeHash H c n v (e + 1) e (2 * g + 1)) := by
    simp only [computeNodeHash, if_neg (show ¬ e + 1 ≤ g by omega)]
  have hpow : e + 1 ≤ 2 * g * 2 ^ e := by
    calc e + 1 ≤ 2 ^ (e + 1) := le_of_lt (Nat.lt_two_pow _)
    _ = 2 * 2 ^ e := by ring
    _ ≤ 2 * g * 2 ^ e := Nat.mul_le_mul (by omega) (le_refl _)
  have hpow₂ : e + 1 ≤ 2 * g * 2 ^ (e + 1) :=
    le_trans hpow (Nat.mul_le_mul (le_refl _)
      (Nat.pow_le_pow_right (by omega) (by omega)))
  have hpow' : e + 1 ≤ (2 * g + 1) * 2 ^ e :=
    le_trans hpow (Nat.mul_le_mul (by omega) (le_refl _))
  have hpow₂' : e + 1 ≤ (2 * g + 1) * 2 ^ (e + 1) :=
    le_trans hpow₂ (Nat.mul_le_mul (by omega) (le_refl _))
  rw [hunfold,
    computeNodeHash_stable H c n v (e + 1) e (e + 1) (2 * g) (by omega)
      hpow hpow₂,
    computeNodeHash_stable H c n v (e + 1) e (e + 1) (2 * g + 1) (by omega)
      hpow' hpow₂']

/-- C7: for capacity `N > 0`, proof generation returns an error iff the
requested gindex is 0; for `g ≥ 1` it returns exactly `floor(log2 g)` sibling
hashes, built by iterating from `g` up to the root: at each step the sibling
gindex is `g - 1` when `g` is odd and `g + 1` when `g` is even, the sibling's
subtree root is appended to the proof (the packed leaf chunk when the sibling
is within the real-data range, the all-zero 32-byte value when beyond it, and
the hash of its two recursively computed children otherwise), then `g`
becomes `g / 2`, terminating at `g = 1`. -/
theorem C7_generate_proof (α : Type) (H : Chunk → Chunk → Chunk)
    (c : TreeHashCodec α) (n : Nat) (v : List α) (hn : 0 < n) :
    (∀ g, generate_proof_for_vec H c n v g = .error .Oops ↔ g = 0) ∧
    (∀ g, 1 ≤ g →
        generate_proof_for_vec H c n v g = .ok (generate_proof H c n v g)) ∧
    generate_proof H c n v 1 = [] ∧
    (∀ g, 2 ≤ g → generate_proof H c n v g =
        computeNodeHash H c n v (effectiveSize c n) (effectiveSize c n)
            (siblingGindex g) ::
          generate_proof H c n v (g / 2)) ∧
    (∀ g, 1 ≤ g → (generate_proof H c n v g).length = log2floor g) ∧
    (∀ g, g % 2 = 1 → siblingGindex g = g - 1) ∧
    (∀ g, g % 2 = 0 → siblingGindex g = g + 1) ∧
    (∀ fuel g, effectiveSize c n ≤ g → c.kind = .Basic →
        computeNodeHash H c n v (effectiveSize c n) fuel g =
          if g - effectiveSize c n < basicChunkCount c n then
            packLeaf H c v (g - effectiveSize c n)
          else zeroChunk) ∧
    (∀ fuel g, effectiveSize c n ≤ g → c.kind ≠ .Basic →
        computeNodeHash H c n v (effectiveSize c n) fuel g =
          if h : g - effectiveSize c n < v.length then
            c.root (v.get ⟨g - effectiveSize c n, h⟩)
          else zeroChunk) ∧
    (∀ g, 1 ≤ g → g < effectiveSize c n →
        computeNodeHash H c n v (effectiveSize c n) (effectiveSize c n) g =
          H (computeNodeHash H c n v (effectiveSize c n) (effectiveSize c n)
              (2 * g))
            (computeNodeHash H c n v (effectiveSize c n) (effectiveSize c n)
              (2 * g + 1))) := by
  have hn0 : n ≠ 0 := by omega
  refine ⟨?_, ?_, rfl, ?_, ?_, ?_, ?_, ?_, ?_, ?_⟩
  · intro g
    constructor
    · intro h
      by_contra hg0
      simp only [generate_proof_for_vec, if_neg hg0, if_neg hn0] at h
      exact Except.noConfusion h
    · intro h
      subst h
      rfl
  · intro g hg
    simp only [generate_proof_for_vec, if_neg (show ¬ g = 0 by omega),
      if_neg hn0]
  · exact generate_proof_step H c n v
  · exact generate_proof_length H c n v
  · intro g h
    simp [siblingGindex, h]
  · intro g h
    simp [siblingGindex, h]
  · intro fuel g hge hkind
    cases fuel <;>
      simp only [computeNodeHash, if_pos hge, leafNodeHash, hkind]
  · intro fuel g hge hkind
    cases hk : c.kind
    · exact absurd hk hkind
    all_goals
      cases fuel <;>
        simp only [computeNodeHash, if_pos hge, leafNodeHash, hk]
  · intro g hg hlt
    exact computeNodeHash_internal H c n v (effectiveSize c n) g hg hlt

/-- Witness for C7: for the `u8` codec at capacity 100 and gindex 5, the
generated proof has `floor(log2 5) = 2` sibling hashes. -/
theorem C7_generate_proof_witness :
    (generate_proof (fun a _ => a) byteTH 100 [(1 : Fin 256)] 5).length =
      log2floor 5 :=
  (C7_generate_proof (Fin 256) (fun a _ => a) byteTH 100 [1]
    (by decide)).2.2.2.2.1 5 (by decide)

/-! ## Claim C9: u8-specialised wrappers vs the generic containers -/

/-- A concrete stand-in for the external hash collaborator, used to evaluate
tree-hash computations at specific inputs (any function that does not fix the
all-zero chunk suffices to exhibit structural differences). -/
def testHash (a b : Chunk) : Chunk :=
  List.zipWith (fun x y => (x + 2 * y + 1) % 256) a b

/-- C9, divergence at the failing input: `VariableListU8<64>` holding the
single byte `1` produces the same wire bytes as `VariableList<u8, 64>`, but a
*different* tree hash root: the generic list merkleizes over
`ceil(64 / 32) = 2` capacity-determined leaves
(`hash(chunk, zero_chunk)` before the length mix-in), while the `u8` wrapper
calls `merkle_root(bytes, 0)` (src/variable_list_u8.rs, line 143), which
merkleizes over `max(1, ceil(len / 32)) = 1` *length*-determined leaf (the
bare chunk).  The sibling `FixedVectorU8` wrapper uses the capacity-aware
`vec_tree_hash_root` and agrees with its generic counterpart by
definition. -/
theorem C9_variable_list_u8_root_divergence :
    VariableListU8.sszAppend ⟨⟨[(1 : Fin 256)]⟩⟩ =
      sszAppendFixed byteCodec [(1 : Fin 256)] ∧
    vec_tree_hash_root testHash byteTH 64 [(1 : Fin 256)] =
      testHash (padChunk [1]) zeroChunk ∧
    merkle_root testHash [1] 0 = padChunk [1] ∧
    VariableList.tree_hash_root testHash byteTH 64 ⟨[(1 : Fin 256)]⟩ ≠
      VariableListU8.tree_hash_root testHash ⟨⟨[(1 : Fin 256)]⟩⟩ ∧
    (∀ (n : Nat) (s : FixedVectorU8),
        FixedVectorU8.tree_hash_root testHash n s =
          FixedVector.tree_hash_root testHash byteTH n s.inner) := by
  refine ⟨by decide, by decide, by decide, by decide, fun n s => rfl⟩

end SszTypes
